import Mathlib

/-!
Verification development for the AMGCL core files: non-smoothed aggregation
coarsening (amgcl/coarsening/aggregation.hpp), the multilevel cycle engine
(amgcl/level_viennacl.hpp), the Eigen direct-solver wrapper
(amgcl/solver/eigen.hpp) and the SCOTCH repartitioning decision
(amgcl/mpi/repartition/scotch.hpp).

Vectors are modelled as rational-valued sequences; the backend linear-algebra
kernels (matrix-vector product, inner product, element-wise operations) are
external collaborators of the core and are modelled as exact rational
arithmetic over an explicit dimension.
-/

namespace Amgcl

/-- a backend vector: rational entries indexed by position.  Each hierarchy
level carries the dimension over which its vectors are meaningful. -/
abbrev Vec : Type := ℕ → ℚ

/-- a dense semantic matrix: rational entries indexed by (row, column). -/
abbrev Mat : Type := ℕ → ℕ → ℚ

/-- the all-zero vector (viennacl vector clear() zeroes the entries). -/
def zeroVec : Vec := fun _ => 0

/-- element-wise vector addition (backend kernel). -/
def vadd (x y : Vec) : Vec := fun i => x i + y i

/-- element-wise vector subtraction (backend kernel). -/
def vsub (x y : Vec) : Vec := fun i => x i - y i

/-- scaling of a vector by a scalar (backend kernel). -/
def smul (a : ℚ) (x : Vec) : Vec := fun i => a * x i

/-- inner product of two vectors over the first n coordinates
(viennacl::linalg::inner_prod on vectors of size n). -/
def innerProd (n : ℕ) (x y : Vec) : ℚ := ∑ i ∈ Finset.range n, x i * y i

/-- matrix-vector product over `cols` columns
(viennacl::linalg::prod on a matrix with that many columns). -/
def matvec (M : Mat) (cols : ℕ) (x : Vec) : Vec :=
  fun i => ∑ j ∈ Finset.range cols, M i j * x j

/-- matrix-matrix product with inner dimension k (backend spgemm kernel). -/
def matMul (A B : Mat) (k : ℕ) : Mat :=
  fun i j => ∑ t ∈ Finset.range k, A i t * B t j

/-- cycle parameters of a level (amgcl::level::params): numbers of
pre- and post-relaxation sweeps, of cycles per level, and the K-cycle stride. -/
structure LevelParams where
  npre : ℕ
  npost : ℕ
  ncycle : ℕ
  kcycle : ℕ

/-- one level of the hierarchy (level_viennacl.hpp, class instance): the
system matrix A, prolongation P, restriction R, the coarsest-level inverse
Ainv, the cached diagonal d of A, the vector dimension n, and whether the
K-cycle auxiliary vectors cg[0..3] were allocated for this level
(nxt->cg[0].size() nonzero in the source). -/
structure LevelInstance where
  n : ℕ
  A : Vec → Vec
  P : Vec → Vec
  R : Vec → Vec
  Ainv : Vec → Vec
  d : Vec
  useK : Bool

/-- one relaxation (smoothing) step (instance::relax): t = A*x; t = rhs - t;
t = element_div(t, d); x += 0.72 * t.  The element-wise division by the
cached diagonal d is unguarded in the source. -/
def relax (l : LevelInstance) (rhs x : Vec) : Vec :=
  fun i => x i + (0.72 : ℚ) * ((rhs i - l.A x i) / l.d i)

/-- divisors used by the element_div step of relax on a level: one per vector
entry, namely the n entries of the cached diagonal d. -/
def relaxDivisors (l : LevelInstance) : List ℚ :=
  (List.range l.n).map l.d

/-- counted for-loop, body applied j times in sequence (the source's
for-loops over a fixed iteration count). -/
def forLoop {α : Type} (body : α → α) : ℕ → α → α
  | 0, x => x
  | j + 1, x => forLoop body j (body x)

/-- one iteration of the K-cycle inner loop (instance::kcycle loop body):
given the preconditioner cyc (a cycle application at this level), the level l
and its dimension, and the state (x, r, p, rho1), performs
s := cyc(r) from a zero start, rho2 := rho1, rho1 := <r,s>,
p := s on the first iteration and s + (rho1/rho2)*p afterwards,
q := A*p, alpha := rho1 / <q,p>, x += alpha*p, r -= alpha*q. -/
def kcStep (l : LevelInstance) (cyc : Vec → Vec → Vec) (first : Bool) :
    Vec × Vec × Vec × ℚ → Vec × Vec × Vec × ℚ :=
  fun st =>
    let x := st.1
    let r := st.2.1
    let p := st.2.2.1
    let rho1 := st.2.2.2
    let s := cyc r zeroVec
    let rho2 := rho1
    let rho1b := innerProd l.n r s
    let pb := if first then s else vadd s (smul (rho1b / rho2) p)
    let q := l.A pb
    let alpha := rho1b / innerProd l.n q pb
    (vadd x (smul alpha pb), vsub r (smul alpha q), pb, rho1b)

/-- the cycle engine over a list of levels, finest first: returns the pair of
the V-cycle (instance::cycle) and the K-cycle (instance::kcycle) solvers at
the head level.  At the coarsest level (the iterator successor is end) both
apply the precomputed direct-solve operator, x = Ainv * rhs.  At a
non-coarsest level the V-cycle repeats ncycle times: npre relaxations,
residual t = rhs - A*x, restriction f = R*t, a recursive solve on the next
level from a zero initial guess (dispatched to the K-cycle when that level
allocated the cg vectors), prolongation x += P*u, npost relaxations.  The
K-cycle performs exactly two kcStep iterations starting from r = rhs. -/
def engine (prm : LevelParams) : List LevelInstance → (Vec → Vec → Vec) × (Vec → Vec → Vec)
  | [] => (fun _ x => x, fun _ x => x)
  | [l] => (fun rhs _ => l.Ainv rhs, fun rhs _ => l.Ainv rhs)
  | l :: nxt :: rest =>
      let sub := engine prm (nxt :: rest)
      let subSolve : Vec → Vec := fun f => (if nxt.useK then sub.2 else sub.1) f zeroVec
      let body : Vec → Vec → Vec := fun rhs x =>
        let x1 := forLoop (relax l rhs) prm.npre x
        let t := vsub rhs (l.A x1)
        let f := l.R t
        let u := subSolve f
        let x2 := vadd x1 (l.P u)
        forLoop (relax l rhs) prm.npost x2
      let cyc : Vec → Vec → Vec := fun rhs x => forLoop (body rhs) prm.ncycle x
      let kcy : Vec → Vec → Vec := fun rhs x =>
        let st1 := kcStep l cyc true (x, rhs, zeroVec, 0)
        let st2 := kcStep l cyc false st1
        st2.1
      (cyc, kcy)

/-- instance::cycle on a hierarchy suffix (iterator position given as the
list of remaining levels, current level first). -/
def cycle (lvls : List LevelInstance) (prm : LevelParams) (rhs x : Vec) : Vec :=
  (engine prm lvls).1 rhs x

/-- instance::kcycle on a hierarchy suffix. -/
def kcycle (lvls : List LevelInstance) (prm : LevelParams) (rhs x : Vec) : Vec :=
  (engine prm lvls).2 rhs x

/-- the recursive solve on the coarser level as the spec describes it: a
solve on the remaining hierarchy starting from a zero initial guess,
using the K-cycle at levels that enable it and the V-cycle otherwise. -/
def coarseSolve (nxt : LevelInstance) (rest : List LevelInstance)
    (prm : LevelParams) (f : Vec) : Vec :=
  if nxt.useK then kcycle (nxt :: rest) prm f zeroVec
  else cycle (nxt :: rest) prm f zeroVec

/-- one V-cycle iteration at a non-coarsest level as the spec states it:
pre-relax npre times, compute the residual rhs - A*x, restrict it via R to
the next level's right-hand side, solve recursively on the coarser level from
a zero initial guess, prolongate the coarse correction via P and add it to
the current approximation, post-relax npost times. -/
def specVIteration (l nxt : LevelInstance) (rest : List LevelInstance)
    (prm : LevelParams) (rhs : Vec) (y : Vec) : Vec :=
  let y1 := (relax l rhs)^[prm.npre] y
  let r := vsub rhs (l.A y1)
  let f := l.R r
  let u := coarseSolve nxt rest prm f
  let y2 := vadd y1 (l.P u)
  (relax l rhs)^[prm.npost] y2

/-- non-coarsest level constructor (level_viennacl.hpp, first instance
constructor) over semantic matrices: stores A (n by n), P (n by nc),
R (nc by n), caches the diagonal of A in d (the diagonal extraction lives in
amgcl/spmat.hpp, which is not under src; the spec states a level owns a
cached diagonal of A for relaxation), and allocates the K-cycle vectors when
nlevel is nonzero and prm.kcycle divides it.  The Ainv member is left
default-constructed by this constructor. -/
def mkInstance (n nc : ℕ) (Ma Mp Mr : Mat) (prm : LevelParams) (nlevel : ℕ) :
    LevelInstance :=
  { n := n
    A := matvec Ma n
    P := matvec Mp nc
    R := matvec Mr n
    Ainv := fun _ => zeroVec
    d := fun i => Ma i i
    useK := decide (nlevel ≠ 0) && decide (prm.kcycle ≠ 0)
              && decide (nlevel % prm.kcycle = 0) }

/-! ## Row-compressed sparse matrices and the aggregation coarsening -/

/-- row-compressed sparse matrix (amgcl::sparse::matrix): row count, column
count, row pointers, column indices and coefficients. -/
structure SpMatrix where
  nrows : ℕ
  ncols : ℕ
  ptr : List ℕ
  col : List ℕ
  val : List ℚ

/-- column indices collected by the interpolation loop of transfer_operators:
for each row its aggregate id when nonnegative, nothing for a sentinel row
(P->col after the loop). -/
def buildCol : List ℤ → List ℕ
  | [] => []
  | id :: rest => (if 0 ≤ id then [id.toNat] else []) ++ buildCol rest

/-- row-pointer entries pushed by the interpolation loop after the initial 0
(P->ptr): after each row the running size of the collected column list, with
c the size on entry. -/
def buildPtr (c : ℕ) : List ℤ → List ℕ
  | [] => []
  | id :: rest =>
      (if 0 ≤ id then c + 1 else c)
        :: buildPtr (if 0 ≤ id then c + 1 else c) rest

/-- number of aggregated (non-sentinel) rows of an aggregate assignment. -/
def aggCount : List ℤ → ℕ
  | [] => 0
  | id :: rest => (if 0 ≤ id then 1 else 0) + aggCount rest

/-- the prolongation matrix built by aggregation::transfer_operators from
the aggregate assignment (one id per fine row, sentinel negative) and the
aggregate count.  The aggregate formation itself is a pluggable external
strategy, so its output is taken as input here.  Mirrors the source loop:
ptr starts at 0, each row pushes its aggregate id onto col when nonnegative
and then pushes the current col size onto ptr; val is resized to n with
value 1. -/
def transferP (ids : List ℤ) (count : ℕ) : SpMatrix :=
  { nrows := ids.length
    ncols := count
    ptr := 0 :: buildPtr 0 ids
    col := buildCol ids
    val := List.replicate ids.length 1 }

/-- row pointer of a sparse matrix at position i (ptr[i]). -/
def ptrAt (M : SpMatrix) (i : ℕ) : ℕ := M.ptr.getD i 0

/-- the (column index, coefficient) pairs of row i of a row-compressed
matrix: the slice of col and val between ptr[i] and ptr[i+1]. -/
def rowEntries (M : SpMatrix) (i : ℕ) : List (ℕ × ℚ) :=
  ((M.col.zip M.val).drop (ptrAt M i)).take (ptrAt M (i + 1) - ptrAt M i)

/-- semantic entry of a row-compressed matrix at (i, j): the sum of the
coefficients stored for column j in row i. -/
def entry (M : SpMatrix) (i j : ℕ) : ℚ :=
  (((rowEntries M i).filter (fun e => e.1 == j)).map Prod.snd).sum

/-- Modelled from the spec: the sparse transpose used by transfer_operators
to form R lives in amgcl/spmat.hpp, which is not under src.  The spec
(section 4.2) states that R is the exact transpose of P, so the model flips
the semantic entries. -/
def transposeEntry (M : SpMatrix) : Mat := fun i j => entry M j i

/-- aggregation::transfer_operators: builds the prolongation P and the
restriction R = transpose(P) from the aggregate assignment. -/
def transfer_operators (ids : List ℤ) (count : ℕ) : SpMatrix × Mat :=
  let P := transferP ids count
  (P, transposeEntry P)

/-- coarsening parameters of the aggregation scheme
(aggregation::params, aggregate-formation parameters omitted): the
over-interpolation factor alpha. -/
structure AggregationParams where
  over_interp : ℚ

/-- Modelled from the spec: detail::scaled_galerkin
(amgcl/coarsening/detail/scaled_galerkin.hpp is not under src).  The spec
(section 4.3) gives its output as the Galerkin triple product R*A*P with
every entry scaled by the given factor. -/
def scaled_galerkin (A P R : Mat) (n : ℕ) (scale : ℚ) : Mat :=
  fun i j => scale * matMul (matMul R A n) P n i j

/-- aggregation::coarse_operator: returns
scaled_galerkin(A, P, R, 1 / prm.over_interp).  The source contains no
validation of over_interp and no failure path, so the translation always
returns with Except.ok. -/
def coarse_operator (A P R : Mat) (n : ℕ) (prm : AggregationParams) :
    Except String Mat :=
  Except.ok (scaled_galerkin A P R n (1 / prm.over_interp))

/-! ## The Eigen direct-solver wrapper -/

/-- status an Eigen factorization reports through info(): success or a
numerical issue (for example a singular matrix). -/
inductive ComputationInfo where
  | success : ComputationInfo
  | numericalIssue : ComputationInfo
deriving DecidableEq

/-- state of a constructed EigenSolver: the stored row count n and the
factorization object S produced by the external compute call. -/
structure EigenSolverState (Fact : Type) where
  n : ℕ
  S : Fact

/-- EigenSolver constructor (solver/eigen.hpp): stores n = rows(A) and the
result of the external factorization compute call on A.  The source inspects
no factorization status and has no failure branch, so construction always
returns with Except.ok whatever the factorization reports. -/
def mkEigenSolver {Fact : Type} (compute : SpMatrix → Fact) (A : SpMatrix) :
    Except String (EigenSolverState Fact) :=
  Except.ok { n := A.nrows, S := compute A }

/-- a singular coarsest-level matrix: 1 by 1 with its only entry zero. -/
def singularMatrix : SpMatrix :=
  { nrows := 1, ncols := 1, ptr := [0, 1], col := [0], val := [0] }

/-- a direct-solver collaborator whose factorization reports a numerical
issue (as Eigen does when the matrix is singular or near-singular). -/
def failingFactorization : SpMatrix → ComputationInfo :=
  fun _ => ComputationInfo.numericalIssue

/-! ## The SCOTCH repartitioning decision -/

/-- repartitioning parameters (scotch::params); the source struct also
carries shrink_ratio, which is read only by the execution operator and not
by is_needed. -/
structure ScotchParams where
  enable : Bool
  min_per_proc : ℕ

/-- number of ranks owning at least one row: the loop of scotch::is_needed
increments non_empty for every rank whose row-range length is nonzero.  The
per-rank row counts are the consecutive differences of row_dom, the
collective exclusive prefix sum of the local row counts (mpi::exclusive_sum
is not under src; per the spec the row-offset sequence is the exclusive
prefix sum of local row counts, so its differences are the counts
themselves). -/
def nonEmptyRanks (counts : List ℕ) : ℕ :=
  counts.foldl (fun acc m => if m ≠ 0 then acc + 1 else acc) 0

/-- minimum nonzero local row count across ranks, starting from the
numeric-limits maximum sentinel (modelled as the top element). -/
def minNonzeroRows (counts : List ℕ) : WithTop ℕ :=
  counts.foldl (fun acc m => if m ≠ 0 then min acc (m : WithTop ℕ) else acc) ⊤

/-- scotch::is_needed: false when repartitioning is disabled, else true
exactly when more than one rank is non-empty and the minimum nonzero local
row count is at or below min_per_proc. -/
def is_needed (prm : ScotchParams) (counts : List ℕ) : Bool :=
  if prm.enable = false then false
  else
    decide (1 < nonEmptyRanks counts)
      && decide (minNonzeroRows counts ≤ (prm.min_per_proc : WithTop ℕ))

/-! ## Helper lemmas -/

lemma forLoop_eq_iterate {α : Type} (body : α → α) (j : ℕ) (x : α) :
    forLoop body j x = body^[j] x := by
  induction j generalizing x with
  | zero => rfl
  | succ j ih => rw [forLoop, ih, Function.iterate_succ_apply]

lemma aggCount_append (xs ys : List ℤ) :
    aggCount (xs ++ ys) = aggCount xs + aggCount ys := by
  induction xs with
  | nil => simp [aggCount]
  | cons a t ih => simp [aggCount, ih, Nat.add_assoc]

lemma buildCol_append (xs ys : List ℤ) :
    buildCol (xs ++ ys) = buildCol xs ++ buildCol ys := by
  induction xs with
  | nil => simp [buildCol]
  | cons a t ih => simp [buildCol, ih]

lemma buildCol_length (ids : List ℤ) :
    (buildCol ids).length = aggCount ids := by
  induction ids with
  | nil => rfl
  | cons a t ih =>
      by_cases h : 0 ≤ a <;> simp [buildCol, aggCount, h, ih, Nat.add_comm]

lemma aggCount_le_length (ids : List ℤ) : aggCount ids ≤ ids.length := by
  induction ids with
  | nil => simp [aggCount]
  | cons a t ih =>
      simp only [aggCount, List.length_cons]
      split <;> omega

lemma aggCount_of_nonneg (ids : List ℤ) (h : ∀ id ∈ ids, 0 ≤ id) :
    aggCount ids = ids.length := by
  induction ids with
  | nil => rfl
  | cons a t ih =>
      have ha : 0 ≤ a := h a (List.mem_cons_self a t)
      have ht := ih (fun x hx => h x (List.mem_cons_of_mem a hx))
      simp [aggCount, ha, ht, Nat.add_comm]

lemma aggCount_take_succ (ids : List ℤ) (i : ℕ) (h : i < ids.length) :
    aggCount (ids.take (i + 1))
      = aggCount (ids.take i) + (if 0 ≤ ids[i] then 1 else 0) := by
  rw [List.take_succ, aggCount_append]
  have hsome : ids[i]? = some ids[i] := List.getElem?_eq_getElem h
  rw [hsome]
  by_cases hi : 0 ≤ ids[i] <;> simp [aggCount, hi]

lemma buildPtr_getD (ids : List ℤ) :
    ∀ c j, j < ids.length →
      (buildPtr c ids).getD j 0 = c + aggCount (ids.take (j + 1)) := by
  induction ids with
  | nil => intro c j h; simp at h
  | cons a t ih =>
      intro c j h
      cases j with
      | zero =>
          rw [buildPtr, List.getD_cons_zero, List.take_succ_cons, List.take_zero]
          by_cases ha : 0 ≤ a <;> simp [aggCount, ha]
      | succ j =>
          have hj : j < t.length := by simpa using h
          rw [buildPtr, List.getD_cons_succ, ih _ j hj, List.take_succ_cons]
          by_cases ha : 0 ≤ a <;> (simp [aggCount, ha]; try omega)

lemma ptrAt_transferP (ids : List ℤ) (count i : ℕ) (h : i ≤ ids.length) :
    ptrAt (transferP ids count) i = aggCount (ids.take i) := by
  cases i with
  | zero => simp [ptrAt, transferP, aggCount]
  | succ j =>
      have hj : j < ids.length := h
      show (0 :: buildPtr 0 ids).getD (j + 1) 0 = _
      rw [List.getD_cons_succ, buildPtr_getD ids 0 j hj, Nat.zero_add]

lemma zip_replicate_one (l : List ℕ) :
    ∀ n, l.length ≤ n →
      l.zip (List.replicate n (1 : ℚ)) = l.map (fun c => (c, (1 : ℚ))) := by
  induction l with
  | nil => intro n _; simp
  | cons a t ih =>
      intro n h
      cases n with
      | zero => simp at h
      | succ m =>
          have hm : t.length ≤ m := by simpa using h
          simp [List.replicate_succ, ih m hm]

lemma rowEntries_transferP (ids : List ℤ) (count i : ℕ) (h : i < ids.length) :
    rowEntries (transferP ids count) i
      = if 0 ≤ ids[i] then [(ids[i].toNat, (1 : ℚ))] else [] := by
  have hzip : (transferP ids count).col.zip (transferP ids count).val
      = (buildCol ids).map (fun c => (c, (1 : ℚ))) := by
    show (buildCol ids).zip (List.replicate ids.length 1) = _
    exact zip_replicate_one _ _
      (by rw [buildCol_length]; exact aggCount_le_length ids)
  have hsplit : buildCol ids = buildCol (ids.take i) ++ buildCol (ids.drop i) := by
    rw [← buildCol_append, List.take_append_drop]
  have hdrop : ids.drop i = ids[i] :: ids.drop (i + 1) := List.drop_eq_getElem_cons h
  have hlen : ((buildCol (ids.take i)).map (fun c => (c, (1 : ℚ)))).length
      = aggCount (ids.take i) := by
    rw [List.length_map, buildCol_length]
  rw [rowEntries, hzip, ptrAt_transferP ids count i (le_of_lt h),
    ptrAt_transferP ids count (i + 1) h, aggCount_take_succ ids i h,
    Nat.add_sub_cancel_left, hsplit, List.map_append, List.drop_left' hlen,
    hdrop, buildCol]
  by_cases hx : 0 ≤ ids[i] <;> simp [hx]

lemma entry_transferP (ids : List ℤ) (count i a : ℕ) (h : i < ids.length) :
    entry (transferP ids count) i a
      = if 0 ≤ ids[i] ∧ ids[i].toNat = a then 1 else 0 := by
  rw [entry, rowEntries_transferP ids count i h]
  by_cases hx : 0 ≤ ids[i] <;>
    by_cases ha : ids[i].toNat = a <;>
      simp [hx, ha]

lemma cycle_cons_cons (l nxt : LevelInstance) (rest : List LevelInstance)
    (prm : LevelParams) (rhs x : Vec) :
    cycle (l :: nxt :: rest) prm rhs x
      = forLoop (specVIteration l nxt rest prm rhs) prm.ncycle x := by
  show (engine prm (l :: nxt :: rest)).1 rhs x = _
  simp only [engine]
  congr 1
  funext y
  simp only [specVIteration, coarseSolve, cycle, kcycle, forLoop_eq_iterate]
  by_cases h : nxt.useK <;> simp [h]

/-! ## Claim theorems -/

/-- C1: for every hierarchy with at least two levels, a V-cycle invocation at
a non-coarsest level performs, ncycle times in sequence, npre relaxation
steps, computation of the residual rhs - A*x, restriction of that residual
via R, a recursive solve on the coarser level from a zero initial guess,
prolongation of the coarse correction via P added onto x, and npost
relaxation steps; at the coarsest level the cycle applies the precomputed
direct-solve operator x = Ainv*rhs and recurses no further. -/
theorem vcycle_structure (l nxt lc : LevelInstance) (rest : List LevelInstance)
    (prm : LevelParams) (rhs x : Vec) :
    cycle (l :: nxt :: rest) prm rhs x
        = (specVIteration l nxt rest prm rhs)^[prm.ncycle] x
      ∧ cycle [lc] prm rhs x = lc.Ainv rhs := by
  constructor
  · rw [cycle_cons_cons, forLoop_eq_iterate]
  · rfl

/-- C2: at every non-coarsest level the K-cycle performs exactly two inner
iterations regardless of the residual reduction achieved; each iteration
preconditions the current residual r with one V-cycle application into s,
sets rho1 = inner(r, s), builds the search direction as p = s on the first
iteration and p = s + (rho1/rho2)*p on the second, computes q = A*p and the
step length alpha = rho1/inner(q, p), and updates x += alpha*p and
r -= alpha*q. -/
theorem kcycle_two_iterations (l nxt : LevelInstance) (rest : List LevelInstance)
    (prm : LevelParams) (rhs x : Vec) :
    kcycle (l :: nxt :: rest) prm rhs x
      = (let lvls := l :: nxt :: rest
         let s1 := cycle lvls prm rhs zeroVec
         let rho1a := innerProd l.n rhs s1
         let p1 := s1
         let q1 := l.A p1
         let alpha1 := rho1a / innerProd l.n q1 p1
         let x1 := vadd x (smul alpha1 p1)
         let r1 := vsub rhs (smul alpha1 q1)
         let s2 := cycle lvls prm r1 zeroVec
         let rho1b := innerProd l.n r1 s2
         let p2 := vadd s2 (smul (rho1b / rho1a) p1)
         let q2 := l.A p2
         let alpha2 := rho1b / innerProd l.n q2 p2
         vadd x1 (smul alpha2 p2)) := by
  show (engine prm (l :: nxt :: rest)).2 rhs x = _
  simp only [engine, kcStep, cycle]
  rfl

/-- C3: coarse_operator returns the Galerkin triple product R*A*P rescaled
by 1/alpha, where alpha is the over_interp parameter; building the coarse
matrix from the same A, P, R with alpha = 1 and with alpha = 2 yields an
entrywise ratio of exactly 2. -/
theorem coarse_operator_scaling (A P R : Mat) (n i j : ℕ) (alpha : ℚ) :
    coarse_operator A P R n { over_interp := alpha }
        = Except.ok (scaled_galerkin A P R n (1 / alpha))
      ∧ scaled_galerkin A P R n (1 / (1 : ℚ)) i j
          = 2 * scaled_galerkin A P R n (1 / (2 : ℚ)) i j := by
  refine ⟨rfl, ?_⟩
  simp only [scaled_galerkin]
  ring

/-- C4: the prolongation matrix built by transfer_operators has one row per
fine row and `count` columns, and row i consists of a single nonzero of
value 1 at column aggregate_id[i] when that id is nonnegative, and of no
nonzeros at all when the id is the sentinel. -/
theorem transfer_operators_prolongation (ids : List ℤ) (count i : ℕ)
    (h : i < ids.length) :
    (transferP ids count).nrows = ids.length
      ∧ (transferP ids count).ncols = count
      ∧ rowEntries (transferP ids count) i
          = (if 0 ≤ ids[i] then [(ids[i].toNat, (1 : ℚ))] else []) :=
  ⟨rfl, rfl, rowEntries_transferP ids count i h⟩

/-- C4 witness: the prolongation built from the assignment [0, sentinel]
with one aggregate has two rows, an indicator row and an all-zero row. -/
theorem transfer_operators_prolongation_witness :
    (transferP [(0 : ℤ), -1] 1).nrows = 2
      ∧ rowEntries (transferP [(0 : ℤ), -1] 1) 0 = [(0, (1 : ℚ))]
      ∧ rowEntries (transferP [(0 : ℤ), -1] 1) 1 = [] := by
  refine ⟨(transfer_operators_prolongation [0, -1] 1 0 (by decide)).1, ?_, ?_⟩
  · have h := (transfer_operators_prolongation [0, -1] 1 0 (by decide)).2.2
    simpa using h
  · have h := (transfer_operators_prolongation [0, -1] 1 1 (by decide)).2.2
    simpa using h

/-- C5: the restriction operator returned by transfer_operators is the exact
transpose of the prolongation returned by the same call: its entry at
(aggregate a, fine row i) equals the entry of P at (i, a), which is the
indicator that row i belongs to aggregate a, weighted 1. -/
theorem restriction_is_transpose (ids : List ℤ) (count a i : ℕ)
    (h : i < ids.length) :
    (transfer_operators ids count).2 a i
        = entry (transfer_operators ids count).1 i a
      ∧ (transfer_operators ids count).2 a i
          = (if 0 ≤ ids[i] ∧ ids[i].toNat = a then 1 else 0) :=
  ⟨rfl, entry_transferP ids count i a h⟩

/-- C5 witness: on the assignment [0, sentinel] with one aggregate, the
restriction entry at (0, 0) equals the prolongation entry at (0, 0) and is
the indicator weight 1. -/
theorem restriction_is_transpose_witness :
    (transfer_operators [(0 : ℤ), -1] 1).2 0 0
        = entry (transfer_operators [(0 : ℤ), -1] 1).1 0 0
      ∧ (transfer_operators [(0 : ℤ), -1] 1).2 0 0 = 1 := by
  refine ⟨(restriction_is_transpose [0, -1] 1 0 0 (by decide)).1, ?_⟩
  have h := (restriction_is_transpose [0, -1] 1 0 0 (by decide)).2
  simpa using h

/-- C6 counterexample: with over_interp = 0 (the invalid configuration),
coarse_operator raises no configuration error; it proceeds and returns a
coarse matrix. -/
theorem coarse_operator_zero_alpha_builds :
    ∃ M, coarse_operator (fun _ _ => 1) (fun _ _ => 1) (fun _ _ => 1) 1
        { over_interp := 0 } = Except.ok M :=
  ⟨_, rfl⟩

/-- C6 amended: coarse_operator performs no validation of over_interp; for
every alpha, including the invalid alpha = 0, it raises no configuration
error and returns the scaled Galerkin matrix computed with scale 1/alpha. -/
theorem coarse_operator_no_validation (A P R : Mat) (n : ℕ)
    (prm : AggregationParams) :
    coarse_operator A P R n prm
      = Except.ok (scaled_galerkin A P R n (1 / prm.over_interp)) := rfl

/-- C7 counterexample: on the assignment [0, sentinel] with one aggregate,
the val array of the prolongation has length 2 while ptr[nrows] is 1, so
val does not store exactly one coefficient per nonzero. -/
theorem transferP_val_length_cex :
    ¬ ((transferP [(0 : ℤ), -1] 1).val.length
        = ptrAt (transferP [(0 : ℤ), -1] 1) (transferP [(0 : ℤ), -1] 1).nrows) := by
  decide

/-- C7 amended: transfer_operators sizes val to one coefficient per row, not
per nonzero: its length equals nrows, while ptr[nrows] equals the number of
aggregated rows; the two agree exactly when no row carries the sentinel. -/
theorem transferP_val_per_row (ids : List ℤ) (count : ℕ) :
    (transferP ids count).val.length = ids.length
      ∧ ptrAt (transferP ids count) (transferP ids count).nrows = aggCount ids
      ∧ ((∀ id ∈ ids, 0 ≤ id) →
          (transferP ids count).val.length
            = ptrAt (transferP ids count) (transferP ids count).nrows) := by
  have hptr : ptrAt (transferP ids count) ids.length = aggCount ids := by
    have h0 := ptrAt_transferP ids count ids.length le_rfl
    rwa [List.take_length ids] at h0
  refine ⟨by simp [transferP], hptr, ?_⟩
  intro hall
  have hl : (transferP ids count).val.length = ids.length := by simp [transferP]
  rw [hl]
  show ids.length = ptrAt (transferP ids count) ids.length
  rw [hptr]
  exact (aggCount_of_nonneg ids hall).symm

/-- C8 counterexample: constructed from a singular 1 by 1 matrix with a
factorization collaborator that reports a numerical issue, the EigenSolver
constructor still returns successfully, storing the failed factorization --
the failure is silent, no fatal setup error is reported. -/
theorem eigen_silent_failure_cex :
    mkEigenSolver failingFactorization singularMatrix
      = Except.ok { n := 1, S := ComputationInfo.numericalIssue } := rfl

/-- C8 amended: the EigenSolver constructor stores the factorization result
without inspecting any status: construction always succeeds, whatever the
factorization collaborator reports, so a factorization failure is not
reported as a setup error. -/
theorem eigen_constructor_never_reports (Fact : Type) (compute : SpMatrix → Fact)
    (A : SpMatrix) :
    mkEigenSolver compute A = Except.ok { n := A.nrows, S := compute A } := rfl

/-- C9: is_needed returns true only if more than one rank owns at least one
row and the minimum nonzero local row count is at or below min_per_proc; in
particular with a single rank it returns false regardless of min_per_proc. -/
theorem scotch_is_needed_only_if (prm : ScotchParams) (counts : List ℕ) (c : ℕ) :
    (is_needed prm counts = true →
        1 < nonEmptyRanks counts
          ∧ minNonzeroRows counts ≤ (prm.min_per_proc : WithTop ℕ))
      ∧ is_needed prm [c] = false := by
  constructor
  · intro h
    rw [is_needed] at h
    by_cases he : prm.enable = false
    · rw [if_pos he] at h
      exact absurd h (by simp)
    · rw [if_neg he] at h
      simpa using h
  · rw [is_needed]
    by_cases he : prm.enable = false
    · rw [if_pos he]
    · rw [if_neg he]
      have h1 : nonEmptyRanks [c] ≤ 1 := by
        by_cases hc : c = 0 <;> simp [nonEmptyRanks, hc]
      have h2 : ¬ (1 < nonEmptyRanks [c]) := by omega
      simp [h2]

/-- C10: relax performs an unguarded element-wise division of the residual
by the cached diagonal vector d of A; no division by zero occurs among its
divisors exactly when every diagonal entry of A within the level dimension
is nonzero, and no branch of relax avoids the division. -/
theorem relax_unguarded_division (n nc : ℕ) (Ma Mp Mr : Mat) (prm : LevelParams)
    (nlevel : ℕ) (rhs x : Vec) (i : ℕ) :
    relax (mkInstance n nc Ma Mp Mr prm nlevel) rhs x i
        = x i + (0.72 : ℚ) * ((rhs i - matvec Ma n x i) / Ma i i)
      ∧ ((0 : ℚ) ∉ relaxDivisors (mkInstance n nc Ma Mp Mr prm nlevel)
          ↔ ∀ k, k < n → Ma k k ≠ 0) := by
  constructor
  · rfl
  · simp [relaxDivisors, mkInstance, List.mem_map, List.mem_range, eq_comm]

end Amgcl
